import Mathlib

/-! Shallow embedding of the style-mutation engine of a Word-document MCP server:
the table styling helpers (word_document_server/core/tables.py) and the
run-splitting text formatter (word_document_server/tools/format_tools.py).
Python strings are modelled as lists of characters; the XML property tree of a
table cell as an inductive list of children; Python-level behaviour the code
relies on (str.lstrip, str.upper, int(s, 16), 02X formatting, truthiness of
optional arguments) is modelled explicitly.  File I/O, document open/save and
the python-docx object model are the external collaborators of the spec; the
paragraph/table level operations are embedded directly. -/

namespace WordServer

/-! ## Character and string helpers (Python semantics) -/

/-- Characters accepted by Python int(s, 16): ASCII hexadecimal digits,
identified by code point (0-9, A-F, a-f). -/
def isHexChar (c : Char) : Bool :=
  (decide (48 ≤ c.toNat) && decide (c.toNat ≤ 57)) ||
  (decide (65 ≤ c.toNat) && decide (c.toNat ≤ 70)) ||
  (decide (97 ≤ c.toNat) && decide (c.toNat ≤ 102))

/-- Numeric value of a hexadecimal digit character. -/
def hexVal (c : Char) : Nat :=
  if c.toNat ≤ 57 then c.toNat - 48
  else if c.toNat ≤ 70 then c.toNat - 55
  else c.toNat - 87

/-- Modelled behaviour of Python int(s, 16): fails on the empty string and on
any non-hex character, succeeds with the base-16 value otherwise.  Python
additionally tolerates surrounding whitespace, a sign, underscores between
digits and a 0x prefix; theorems that quantify over arbitrary colour strings
therefore restrict to alphanumeric-or-hash input, on which (for the at most
two-character slices used here) the two semantics agree. -/
def pyIntHex16 (l : List Char) : Option Nat :=
  if l.isEmpty then none
  else if l.all isHexChar then
    some (l.foldl (fun acc c => 16 * acc + hexVal c) 0)
  else none

/-- Python slice s[a:b] for 0 ≤ a ≤ b (clamped at the end of the string). -/
def pySlice (l : List Char) (a b : Nat) : List Char := (l.take b).drop a

/-- Python s.lstrip with the single stripped character being the hash sign:
removes every leading occurrence. -/
def pyLstripHash (l : List Char) : List Char := l.dropWhile (fun c => c == '#')

/-- Python str.upper on an ASCII character (non-ASCII input is excluded by an
ASCII hypothesis wherever a theorem quantifies over arbitrary strings, since
Python upper-cases some non-ASCII characters differently). -/
def charUpper (c : Char) : Char :=
  if 97 ≤ c.toNat ∧ c.toNat ≤ 122 then Char.ofNat (c.toNat - 32) else c

/-- Python str.lower on an ASCII character. -/
def charLower (c : Char) : Char :=
  if 65 ≤ c.toNat ∧ c.toNat ≤ 90 then Char.ofNat (c.toNat + 32) else c

def pyLower (s : String) : String := ⟨s.data.map charLower⟩

/-- fill_color.lstrip of the hash sign followed by .upper, as in
set_cell_shading. -/
def normalize_fill (s : String) : String := ⟨(pyLstripHash s.data).map charUpper⟩

/-- Modelled acceptance of one character inside a serialized XML attribute
value by parse_xml: a double quote ends the attribute early, an angle bracket
or ampersand is ill-formed, and control characters other than tab, newline and
carriage return are rejected by the XML parser. -/
def xmlOkChar (c : Char) : Bool :=
  decide (c.toNat ≠ 34) && decide (c.toNat ≠ 60) && decide (c.toNat ≠ 38) &&
  (decide (32 ≤ c.toNat) || decide (c.toNat = 9) || decide (c.toNat = 10) ||
    decide (c.toNat = 13))

/-- A string usable verbatim as an XML attribute value in the f-string built
XML fragments (otherwise parse_xml raises and the enclosing except runs). -/
def xmlAttrOk (s : String) : Bool := s.data.all xmlOkChar

/-- All characters ASCII: the region where the modelled upper/lower/strip
agree with Python exactly. -/
def asciiStr (s : String) : Bool := s.data.all (fun c => decide (c.toNat < 128))

/-- All characters alphanumeric or a hash sign: the region where pyIntHex16 of
short slices agrees with Python int(s, 16) exactly. -/
def alnumOrHash (s : String) : Bool := s.data.all (fun c => c.isAlphanum || c == '#')

/-- Uppercase hexadecimal digit character for one value 0-15 (models the
Python format specifier 02X digit). -/
def hexDigitUpper (n : Nat) : Char :=
  if n < 10 then Char.ofNat (48 + n) else Char.ofNat (55 + n)

/-- Python 02X formatting of one RGB byte (all RGBColor components are
0-255, hence exactly two digits). -/
def hexByte (n : Nat) : List Char := [hexDigitUpper (n / 16), hexDigitUpper (n % 16)]

/-! ## Runs and paragraphs (python-docx document model surface) -/

/-- One run: a span of text carrying one formatting record.  Absent direct
formatting is none, as in python-docx. -/
structure Run where
  text : List Char
  bold : Option Bool := none
  italic : Option Bool := none
  underline : Option Bool := none
  color : Option (Nat × Nat × Nat) := none
  size : Option Int := none
  fontName : Option String := none
deriving DecidableEq

/-- python-docx Run.clear: removes the run content but keeps the run element
(and its formatting record) in the paragraph. -/
def Run.clear (r : Run) : Run := { r with text := [] }

structure Paragraph where
  runs : List Run
deriving DecidableEq

/-- paragraph.text: concatenation of the texts of all runs. -/
def Paragraph.text (p : Paragraph) : List Char := (p.runs.map Run.text).flatten

/-! ## The run-splitting text formatter (format_tools.format_text, paragraph
level: the surrounding file existence / writability / paragraph index
validation is the external wrapper) -/

/-- The optional formatting parameters of format_text. -/
structure FormatSpec where
  bold : Option Bool := none
  italic : Option Bool := none
  underline : Option Bool := none
  color : Option String := none
  fontSize : Option Int := none
  fontName : Option String := none
deriving DecidableEq

/-- The fixed named-colour table of format_text. -/
def color_map : List (String × (Nat × Nat × Nat)) :=
  [("red", (255, 0, 0)), ("blue", (0, 0, 255)), ("green", (0, 128, 0)),
   ("yellow", (255, 255, 0)), ("black", (0, 0, 0)), ("gray", (128, 128, 128)),
   ("white", (255, 255, 255)), ("purple", (128, 0, 128)), ("orange", (255, 165, 0))]

/-- python-docx RGBColor.from_string: parses the slices 0:2, 2:4 and 4:end of
the string with int(-, 16); the RGBColor constructor then rejects any
component outside 0-255.  Failure anywhere raises, which format_text catches
and replaces by black. -/
def rgb_from_string (s : String) : Option (Nat × Nat × Nat) :=
  match pyIntHex16 (pySlice s.data 0 2), pyIntHex16 (pySlice s.data 2 4),
        pyIntHex16 (s.data.drop 4) with
  | some r, some g, some b =>
      if r ≤ 255 ∧ g ≤ 255 ∧ b ≤ 255 then some (r, g, b) else none
  | _, _, _ => none

/-- Colour resolution of format_text: the fixed named-colour table on the
lower-cased name, else RGBColor.from_string, defaulting to black. -/
def resolve_color (c : String) : Nat × Nat × Nat :=
  match List.lookup (pyLower c) color_map with
  | some rgb => rgb
  | none => (rgb_from_string c).getD (0, 0, 0)

/-- The target run built by format_text: a fresh run (add_run) whose
formatting fields are assigned exactly when the corresponding parameter is
set.  Python truthiness: font_size is applied only when non-zero, font_name
and color only when non-empty. -/
def apply_format (t : List Char) (f : FormatSpec) : Run :=
  { text := t
    bold := f.bold
    italic := f.italic
    underline := f.underline
    color :=
      match f.color with
      | some c => if c = "" then none else some (resolve_color c)
      | none => none
    size :=
      match f.fontSize with
      | some n => if n = 0 then none else some n
      | none => none
    fontName :=
      match f.fontName with
      | some nm => if nm = "" then none else some nm
      | none => none }

/-- Paragraph-level outcome of format_text: the invalid-positions error
message (which reports the paragraph text length), or success carrying the
formatted substring echoed in the success message. -/
inductive FTResult
  | invalidPositions (textLen : Nat)
  | ok (formatted : List Char)
deriving DecidableEq

/-- format_text, paragraph level.  Validation is exactly the source guard
start_pos < 0 or end_pos > len(text) or start_pos >= end_pos.  On success all
existing runs are cleared (python-docx clear keeps the emptied run elements)
and up to three new runs are appended: the text before the target when
start_pos > 0, the formatted target, the text after when end_pos < len. -/
def format_text_para (p : Paragraph) (start_pos end_pos : Int) (f : FormatSpec) :
    FTResult × Paragraph :=
  let text := p.text
  if start_pos < 0 ∨ end_pos > (text.length : Int) ∨ start_pos ≥ end_pos then
    (FTResult.invalidPositions text.length, p)
  else
    let target_text := pySlice text start_pos.toNat end_pos.toNat
    let cleared := p.runs.map Run.clear
    let before := if 0 < start_pos then [({ text := text.take start_pos.toNat } : Run)] else []
    let run_target := apply_format target_text f
    let after :=
      if end_pos < (text.length : Int) then [({ text := text.drop end_pos.toNat } : Run)] else []
    (FTResult.ok target_text, ⟨cleared ++ before ++ [run_target] ++ after⟩)

/-! ## The cell property tree (w:tcPr and its children) -/

/-- A shading fragment (w:shd).  set_cell_shading emits val/color attributes
(and fill when valid); the shading path of apply_table_style emits only
fill. -/
structure Shd where
  val : Option String
  color : Option String
  fill : Option String
deriving DecidableEq

/-- One border edge definition node (w:top, w:left, w:bottom or w:right inside
w:tcBorders). -/
structure EdgeNode where
  name : String
  val : String
  sz : String
  space : String
  color : String
deriving DecidableEq

/-- A direct child of the cell property container: a shading fragment, the
border collection, or any other property node (untouched by the engine). -/
inductive TcChild
  | shd (s : Shd)
  | tcBorders (edges : List EdgeNode)
  | other (tag : String)
deriving DecidableEq

/-- A table cell: its property container (an absent w:tcPr is modelled as the
empty child list, matching get_or_add_tcPr) and its paragraphs. -/
structure Cell where
  tcPr : List TcChild
  paragraphs : List Paragraph
deriving DecidableEq

structure Row where
  cells : List Cell
deriving DecidableEq

structure Table where
  rows : List Row
deriving DecidableEq

def allCells (t : Table) : List Cell := t.rows.flatMap Row.cells

/-- Number of shading fragments among the children. -/
def shdCount : List TcChild → Nat
  | [] => 0
  | TcChild.shd _ :: rest => shdCount rest + 1
  | _ :: rest => shdCount rest

/-- Number of border-collection fragments among the children. -/
def bordersCount : List TcChild → Nat
  | [] => 0
  | TcChild.tcBorders _ :: rest => bordersCount rest + 1
  | _ :: rest => bordersCount rest

/-- The shading fragments among the children, in order. -/
def shdFragments : List TcChild → List Shd
  | [] => []
  | TcChild.shd s :: rest => s :: shdFragments rest
  | _ :: rest => shdFragments rest

/-- lxml find of w:shd followed by remove: deletes the first shading child, if
any. -/
def removeFirstShd : List TcChild → List TcChild
  | [] => []
  | TcChild.shd _ :: rest => rest
  | c :: rest => c :: removeFirstShd rest

/-- The spec data-model invariant: at most one shading fragment and at most
one border-collection fragment per property container. -/
def CellInv (c : Cell) : Prop := shdCount c.tcPr ≤ 1 ∧ bordersCount c.tcPr ≤ 1

instance (c : Cell) : Decidable (CellInv c) := by
  unfold CellInv
  exact inferInstance

/-! ## tables.set_cell_shading -/

/-- The fill_color argument: a hex string or a python-docx RGBColor. -/
inductive FillColor
  | str (s : String)
  | rgb (r g b : Nat)
deriving DecidableEq

/-- tables.set_cell_shading.  Removes the first existing shading child, then
appends a new w:shd with val = pattern and color = pattern_color (the source
conditional pattern_color if pattern_color ... else auto returns pattern_color
in both branches).  A string fill colour is hash-stripped and upper-cased and
contributes a fill attribute exactly when the result has length six (an empty
string is falsy in the source and skipped, which coincides with failing the
length test); an RGBColor contributes its 02X02X02X form.  If serializing the
attributes breaks the parse_xml call the except path reports False with the
old shading already removed and nothing appended. -/
def fillOf : Option FillColor → Option String
  | none => none
  | some (FillColor.str s) =>
      if (normalize_fill s).length = 6 then some (normalize_fill s) else none
  | some (FillColor.rgb r g b) => some ⟨hexByte r ++ hexByte g ++ hexByte b⟩

/-- Serializability of the three shading attributes through the f-string and
parse_xml. -/
def shdOk (pattern pattern_color : String) (fill : Option String) : Bool :=
  xmlAttrOk pattern && xmlAttrOk pattern_color &&
    (match fill with | some f => xmlAttrOk f | none => true)

def set_cell_shading (cell : Cell) (fill_color : Option FillColor) (pattern : String)
    (pattern_color : String) : Cell × Bool :=
  let cs := removeFirstShd cell.tcPr
  let fill : Option String := fillOf fill_color
  if shdOk pattern pattern_color fill then
    ({ cell with tcPr := cs ++ [TcChild.shd ⟨some pattern, some pattern_color, fill⟩] }, true)
  else
    ({ cell with tcPr := cs }, false)

/-! ## tables.set_cell_border -/

def edgeKeyList : List String := ["top", "left", "bottom", "right"]

/-- One border edge element as built in the kwargs loop, with the source
defaults for absent val/sz/space/color kwargs. -/
def mkEdge (key : String) (val sz space color : Option String) : EdgeNode :=
  ⟨key, val.getD "single", sz.getD "4", space.getD "0", color.getD "auto"⟩

/-- first_child_found_in of w:tcBorders, appending the edge node to the first
border collection; when none exists a fresh w:tcBorders is appended to the
container first. -/
def addEdgeToChildren (e : EdgeNode) : List TcChild → List TcChild
  | [] => [TcChild.tcBorders [e]]
  | TcChild.tcBorders es :: rest => TcChild.tcBorders (es ++ [e]) :: rest
  | c :: rest => c :: addEdgeToChildren e rest

/-- The kwargs loop of set_cell_border: the keys of the kwargs dict in order;
only the four edge keys act, each appending one new edge node. -/
def set_cell_border_go (val sz space color : Option String) :
    List String → List TcChild → List TcChild
  | [], cs => cs
  | k :: ks, cs =>
      if k ∈ edgeKeyList then
        set_cell_border_go val sz space color ks
          (addEdgeToChildren (mkEdge k val sz space color) cs)
      else
        set_cell_border_go val sz space color ks cs

/-- tables.set_cell_border (edges = the kwargs keys in iteration order). -/
def set_cell_border (cell : Cell) (edges : List String) (val sz space color : Option String) :
    Cell :=
  { cell with tcPr := set_cell_border_go val sz space color edges cell.tcPr }

/-- Number of edge nodes of one name across the border collections. -/
def edgesCountNamed (nm : String) : List EdgeNode → Nat
  | [] => 0
  | e :: es => (if e.name = nm then 1 else 0) + edgesCountNamed nm es

def edgeCountChildren (nm : String) : List TcChild → Nat
  | [] => 0
  | TcChild.tcBorders es :: rest => edgesCountNamed nm es + edgeCountChildren nm rest
  | _ :: rest => edgeCountChildren nm rest

/-- Multiplicity of one key in a kwargs key list. -/
def countKey (nm : String) : List String → Nat
  | [] => 0
  | k :: ks => (if k = nm then 1 else 0) + countKey nm ks

/-- n successive applications of set_cell_border with the same arguments. -/
def set_cell_border_iter (edges : List String) (val sz space color : Option String) :
    Nat → Cell → Cell
  | 0, c => c
  | n + 1, c =>
      set_cell_border_iter edges val sz space color n (set_cell_border c edges val sz space color)

/-! ## tables.apply_table_style -/

/-- The shading path of apply_table_style: parse_xml of an f-string with only
a fill attribute, appended to the property container with no removal of an
existing shading child; an attribute-breaking colour makes parse_xml raise
and the inner except skips the cell. -/
def appendShd (c : Cell) (color : String) : Cell :=
  { c with tcPr := c.tcPr ++ [TcChild.shd ⟨none, none, some color⟩] }

/-- The inner loop over one row of the shading matrix; surplus colour entries
hit the break on the cell index, surplus cells stay untouched. -/
def shade_cells_with : List String → List Cell → List Cell
  | _, [] => []
  | [], cs => cs
  | col :: cols, c :: cs =>
      (if xmlAttrOk col then appendShd c col else c) :: shade_cells_with cols cs

/-- The outer loop over the shading matrix; surplus matrix rows hit the break
on the row index, surplus table rows stay untouched. -/
def shade_rows_with : List (List String) → List Row → List Row
  | _, [] => []
  | [], rs => rs
  | colors :: more, r :: rs => ⟨shade_cells_with colors r.cells⟩ :: shade_rows_with more rs

def boldRun (r : Run) : Run := { r with bold := some true }

def bold_runs_cell (c : Cell) : Cell :=
  { c with paragraphs := c.paragraphs.map (fun p => ⟨p.runs.map boldRun⟩) }

/-- The border style dictionary with its get default of single. -/
def border_val_map (bs : String) : String :=
  (List.lookup (pyLower bs)
    [("none", "nil"), ("single", "single"), ("double", "double"), ("thick", "thick")]).getD
    "single"

/-- The border path of apply_table_style: set_cell_border on every cell with
kwargs top, bottom, left, right, val, color (in that order). -/
def border_all_cells (t : Table) (v : String) : Table :=
  ⟨t.rows.map (fun r => ⟨r.cells.map (fun c =>
    set_cell_border c ["top", "bottom", "left", "right"] (some v) none none
      (some "000000"))⟩)⟩

/-- First stage of apply_table_style: when has_header_row is truthy and the
table has rows, every run of every paragraph of row 0 is bolded. -/
def bold_header_stage (t : Table) (has_header_row : Bool) : Table :=
  if has_header_row then
    match t.rows with
    | [] => t
    | r0 :: rest => (⟨⟨r0.cells.map bold_runs_cell⟩ :: rest⟩ : Table)
  else t

/-- Second stage: when border_style is truthy (present and non-empty), every
cell of the table receives the four borders. -/
def border_stage (t : Table) (border_style : Option String) : Table :=
  match border_style with
  | some bs => if bs = "" then t else border_all_cells t (border_val_map bs)
  | none => t

/-- Third stage: the shading matrix (an absent matrix, like the falsy empty
list, shades nothing). -/
def shading_stage (t : Table) (shading : Option (List (List String))) : Table :=
  match shading with
  | some sh => (⟨shade_rows_with sh t.rows⟩ : Table)
  | none => t

/-- tables.apply_table_style: optional header-row bolding, then optional
borders, then the optional shading matrix, returning True (the broad except
is unreachable in the embedded fragment). -/
def apply_table_style (t : Table) (has_header_row : Bool) (border_style : Option String)
    (shading : Option (List (List String))) : Table × Bool :=
  (shading_stage (border_stage (bold_header_stage t has_header_row) border_style) shading,
    true)

/-! ## tables.apply_alternating_row_shading -/

def shadeRow (fill : String) (r : Row) : Row :=
  ⟨r.cells.map (fun c => (set_cell_shading c (some (FillColor.str fill)) "clear" "auto").1)⟩

/-- The enumerate loop: row at offset i gets color1 when i is even, color2
when i is odd; the boolean return of set_cell_shading is ignored. -/
def alt_rows (c1 c2 : String) : Nat → List Row → List Row
  | _, [] => []
  | i, r :: rs => shadeRow (if i % 2 = 0 then c1 else c2) r :: alt_rows c1 c2 (i + 1) rs

def apply_alternating_row_shading (t : Table) (color1 color2 : String) : Table × Bool :=
  (⟨alt_rows color1 color2 0 t.rows⟩, true)

/-! ## tables.highlight_header_row -/

/-- The try-block parsing text_color: lstrip the hash sign, then int(-, 16) of
the slices 0:2, 2:4 and 4:6; any failure is swallowed and leaves the run font
colour unassigned.  (The two-digit slices keep every parsed component below
256, so the RGBColor range check cannot fire here.) -/
def parse_text_color (tc : String) : Option (Nat × Nat × Nat) :=
  let l := pyLstripHash tc.data
  match pyIntHex16 (pySlice l 0 2), pyIntHex16 (pySlice l 2 4), pyIntHex16 (pySlice l 4 6) with
  | some r, some g, some b => some (r, g, b)
  | _, _, _ => none

/-- tables.highlight_header_row: every cell of row 0 is shaded with
header_color (pattern clear), every run of every paragraph of those cells is
bolded, and the font colour is assigned exactly when text_color is truthy, not
auto, and parses; the in-loop lstrip reassignment of text_color is idempotent
and therefore unobservable.  Returns True. -/
def highlight_header_row (t : Table) (header_color text_color : String) : Table × Bool :=
  match t.rows with
  | [] => (t, true)
  | r0 :: rest =>
    let newColor : Option (Nat × Nat × Nat) :=
      if text_color ≠ "" ∧ text_color ≠ "auto" then parse_text_color text_color else none
    let updRun : Run → Run := fun r =>
      match newColor with
      | some rgb => { r with bold := some true, color := some rgb }
      | none => { r with bold := some true }
    let updCell : Cell → Cell := fun c =>
      let c1 := (set_cell_shading c (some (FillColor.str header_color)) "clear" "auto").1
      { c1 with paragraphs := c1.paragraphs.map (fun p => ⟨p.runs.map updRun⟩) }
    (⟨⟨r0.cells.map updCell⟩ :: rest⟩, true)

/-! ## tables.set_cell_shading_by_position -/

/-- The chained bounds check of set_cell_shading_by_position (the column bound
is only evaluated after the row bound holds, so the row access is guarded). -/
def posInBounds (t : Table) (row_index col_index : Int) : Prop :=
  0 ≤ row_index ∧ row_index < (t.rows.length : Int) ∧
  0 ≤ col_index ∧ col_index < ((t.rows.getD row_index.toNat ⟨[]⟩).cells.length : Int)

instance (t : Table) (ri ci : Int) : Decidable (posInBounds t ri ci) := by
  unfold posInBounds
  exact inferInstance

/-- tables.set_cell_shading_by_position: in-bounds indices delegate to
set_cell_shading on the addressed cell (pattern forwarded, pattern_color left
at its default), out-of-bounds indices return False without touching the
table. -/
def set_cell_shading_by_position (t : Table) (row_index col_index : Int) (fill_color : String)
    (pattern : String) : Table × Bool :=
  if 0 ≤ row_index ∧ row_index < (t.rows.length : Int) then
    let rn := row_index.toNat
    let row := t.rows.getD rn ⟨[]⟩
    if 0 ≤ col_index ∧ col_index < (row.cells.length : Int) then
      let cn := col_index.toNat
      let c := row.cells.getD cn ⟨[], []⟩
      let res := set_cell_shading c (some (FillColor.str fill_color)) pattern "auto"
      (⟨t.rows.set rn ⟨row.cells.set cn res.1⟩⟩, res.2)
    else (t, false)
  else (t, false)

/-- A well-formed fill colour string in the sense of the spec: ASCII, and its
normalized form is exactly six hexadecimal digits. -/
def validFillStr (s : String) : Bool :=
  asciiStr s && decide ((normalize_fill s).length = 6) && (normalize_fill s).data.all isHexChar

/-! ## Structural lemmas about the property container -/

theorem shdCount_append (a b : List TcChild) :
    shdCount (a ++ b) = shdCount a + shdCount b := by
  induction a with
  | nil => simp [shdCount]
  | cons c rest ih =>
      cases c
      all_goals simp [shdCount, ih]
      omega

theorem bordersCount_append (a b : List TcChild) :
    bordersCount (a ++ b) = bordersCount a + bordersCount b := by
  induction a with
  | nil => simp [bordersCount]
  | cons c rest ih =>
      cases c
      all_goals simp [bordersCount, ih]
      omega

theorem shdFragments_append (a b : List TcChild) :
    shdFragments (a ++ b) = shdFragments a ++ shdFragments b := by
  induction a with
  | nil => simp [shdFragments]
  | cons c rest ih => cases c <;> simp [shdFragments, ih]

theorem shdFragments_nil_of_count (cs : List TcChild) (h : shdCount cs = 0) :
    shdFragments cs = [] := by
  induction cs with
  | nil => simp [shdFragments]
  | cons c rest ih => cases c <;> simp_all [shdCount, shdFragments]

theorem shdCount_removeFirstShd (cs : List TcChild) (h : shdCount cs ≤ 1) :
    shdCount (removeFirstShd cs) = 0 := by
  induction cs with
  | nil => simp [removeFirstShd, shdCount]
  | cons c rest ih =>
      cases c
      all_goals simp_all [shdCount, removeFirstShd]

theorem bordersCount_removeFirstShd (cs : List TcChild) :
    bordersCount (removeFirstShd cs) = bordersCount cs := by
  induction cs with
  | nil => rfl
  | cons c rest ih => cases c <;> simp_all [bordersCount, removeFirstShd, shdCount]

/-! ## Lemmas about set_cell_shading -/

theorem paragraphs_scs (c : Cell) (fc : Option FillColor) (p pc : String) :
    ((set_cell_shading c fc p pc).1).paragraphs = c.paragraphs := by
  simp only [set_cell_shading]
  split <;> rfl

theorem shdCount_scs (c : Cell) (fc : Option FillColor) (p pc : String)
    (h : shdCount c.tcPr ≤ 1) : shdCount ((set_cell_shading c fc p pc).1).tcPr ≤ 1 := by
  simp only [set_cell_shading]
  split
  · simp [shdCount_append, shdCount_removeFirstShd c.tcPr h, shdCount]
  · simp [shdCount_removeFirstShd c.tcPr h]

theorem bordersCount_scs (c : Cell) (fc : Option FillColor) (p pc : String) :
    bordersCount ((set_cell_shading c fc p pc).1).tcPr = bordersCount c.tcPr := by
  simp only [set_cell_shading]
  split <;>
    simp [bordersCount_append, bordersCount_removeFirstShd, bordersCount]

theorem xmlOk_of_hex (c : Char) (h : isHexChar c = true) : xmlOkChar c = true := by
  simp only [isHexChar, xmlOkChar, Bool.or_eq_true, Bool.and_eq_true, decide_eq_true_eq] at h ⊢
  omega

theorem xmlAttrOk_of_all_hex (s : String) (h : s.data.all isHexChar = true) :
    xmlAttrOk s = true := by
  simp only [xmlAttrOk, List.all_eq_true] at h ⊢
  exact fun c hc => xmlOk_of_hex c (h c hc)

/-- A valid string fill colour makes set_cell_shading replace the first
shading child by the new fragment carrying the normalized fill, and succeed. -/
theorem scs_valid_str (c : Cell) (s pattern pc : String)
    (hp : xmlAttrOk pattern = true) (hpc : xmlAttrOk pc = true)
    (hs : validFillStr s = true) :
    set_cell_shading c (some (FillColor.str s)) pattern pc =
      ({ c with tcPr := removeFirstShd c.tcPr ++
        [TcChild.shd ⟨some pattern, some pc, some (normalize_fill s)⟩] }, true) := by
  simp only [validFillStr, Bool.and_eq_true, decide_eq_true_eq] at hs
  have hfill : fillOf (some (FillColor.str s)) = some (normalize_fill s) := by
    simp [fillOf, hs.1.2]
  simp only [set_cell_shading, hfill]
  rw [if_pos]
  simp [shdOk, hp, hpc, xmlAttrOk_of_all_hex _ hs.2]

theorem shdFragments_scs_valid (c : Cell) (s pattern pc : String)
    (hinv : shdCount c.tcPr ≤ 1)
    (hp : xmlAttrOk pattern = true) (hpc : xmlAttrOk pc = true)
    (hs : validFillStr s = true) :
    shdFragments ((set_cell_shading c (some (FillColor.str s)) pattern pc).1).tcPr =
      [⟨some pattern, some pc, some (normalize_fill s)⟩] := by
  rw [scs_valid_str c s pattern pc hp hpc hs]
  simp [shdFragments_append,
    shdFragments_nil_of_count _ (shdCount_removeFirstShd c.tcPr hinv), shdFragments]

/-! ## Lemmas about set_cell_border -/

theorem edgesCountNamed_append (nm : String) (a b : List EdgeNode) :
    edgesCountNamed nm (a ++ b) = edgesCountNamed nm a + edgesCountNamed nm b := by
  induction a with
  | nil => simp [edgesCountNamed]
  | cons e es ih => simp [edgesCountNamed, ih]; omega

theorem shdCount_addEdge (e : EdgeNode) (cs : List TcChild) :
    shdCount (addEdgeToChildren e cs) = shdCount cs := by
  induction cs with
  | nil => rfl
  | cons c rest ih =>
      cases c
      all_goals simp_all [addEdgeToChildren, shdCount]

theorem bordersCount_addEdge (e : EdgeNode) (cs : List TcChild) (h : bordersCount cs ≤ 1) :
    bordersCount (addEdgeToChildren e cs) ≤ 1 := by
  induction cs with
  | nil => simp [addEdgeToChildren, bordersCount]
  | cons c rest ih =>
      cases c
      all_goals simp_all [addEdgeToChildren, bordersCount]

theorem edgeCount_addEdge (nm : String) (e : EdgeNode) (cs : List TcChild) :
    edgeCountChildren nm (addEdgeToChildren e cs) =
      edgeCountChildren nm cs + (if e.name = nm then 1 else 0) := by
  induction cs with
  | nil => simp [addEdgeToChildren, edgeCountChildren, edgesCountNamed]
  | cons c rest ih =>
      cases c
      all_goals simp_all [addEdgeToChildren, edgeCountChildren, edgesCountNamed_append,
        edgesCountNamed]
      all_goals omega

theorem shdCount_border_go (v sz sp col : Option String) (ks : List String)
    (cs : List TcChild) : shdCount (set_cell_border_go v sz sp col ks cs) = shdCount cs := by
  induction ks generalizing cs with
  | nil => rfl
  | cons k ks ih =>
      simp only [set_cell_border_go]
      split
      · rw [ih, shdCount_addEdge]
      · exact ih cs

theorem bordersCount_border_go (v sz sp col : Option String) (ks : List String)
    (cs : List TcChild) (h : bordersCount cs ≤ 1) :
    bordersCount (set_cell_border_go v sz sp col ks cs) ≤ 1 := by
  induction ks generalizing cs with
  | nil => exact h
  | cons k ks ih =>
      simp only [set_cell_border_go]
      split
      · exact ih _ (bordersCount_addEdge _ cs h)
      · exact ih cs h

theorem edgeCount_border_go (nm : String) (hnm : nm ∈ edgeKeyList)
    (v sz sp col : Option String) (ks : List String) (cs : List TcChild) :
    edgeCountChildren nm (set_cell_border_go v sz sp col ks cs) =
      edgeCountChildren nm cs + countKey nm ks := by
  induction ks generalizing cs with
  | nil => simp [set_cell_border_go, countKey]
  | cons k ks ih =>
      simp only [set_cell_border_go, countKey]
      split
      · rw [ih, edgeCount_addEdge]
        simp [mkEdge]
        omega
      · rename_i hk
        have : ¬ k = nm := fun he => hk (he ▸ hnm)
        rw [ih]
        simp [this]

theorem shdCount_border (c : Cell) (edges : List String) (v sz sp col : Option String) :
    shdCount ((set_cell_border c edges v sz sp col).tcPr) = shdCount c.tcPr :=
  shdCount_border_go v sz sp col edges c.tcPr

theorem bordersCount_border (c : Cell) (edges : List String) (v sz sp col : Option String)
    (h : bordersCount c.tcPr ≤ 1) :
    bordersCount ((set_cell_border c edges v sz sp col).tcPr) ≤ 1 :=
  bordersCount_border_go v sz sp col edges c.tcPr h

/-! ## Lemmas about the whole-table operations -/

theorem shdCount_appendShd (c : Cell) (col : String) :
    shdCount (appendShd c col).tcPr = shdCount c.tcPr + 1 := by
  simp [appendShd, shdCount_append, shdCount]

theorem bordersCount_appendShd (c : Cell) (col : String) :
    bordersCount (appendShd c col).tcPr = bordersCount c.tcPr := by
  simp [appendShd, bordersCount_append, bordersCount]

theorem alt_rows_length (c1 c2 : String) (i : Nat) (rs : List Row) :
    (alt_rows c1 c2 i rs).length = rs.length := by
  induction rs generalizing i with
  | nil => rfl
  | cons r rs ih => simp [alt_rows, ih]

theorem alt_rows_getElem? (c1 c2 : String) (i j : Nat) (rs : List Row) :
    (alt_rows c1 c2 i rs)[j]? =
      (rs[j]?).map (shadeRow (if (i + j) % 2 = 0 then c1 else c2)) := by
  induction rs generalizing i j with
  | nil => simp [alt_rows]
  | cons r rs ih =>
      cases j with
      | zero => simp [alt_rows]
      | succ j =>
          simp only [alt_rows, List.getElem?_cons_succ]
          rw [ih (i + 1) j]
          have hidx : i + 1 + j = i + (j + 1) := by omega
          rw [hidx]

theorem mem_cells_alt_rows (c1 c2 : String) (i : Nat) (rs : List Row) (c : Cell)
    (hc : c ∈ (alt_rows c1 c2 i rs).flatMap Row.cells) :
    ∃ c0 fill, c0 ∈ rs.flatMap Row.cells ∧
      c = (set_cell_shading c0 (some (FillColor.str fill)) "clear" "auto").1 := by
  induction rs generalizing i with
  | nil => simp [alt_rows] at hc
  | cons r rs ih =>
      simp only [alt_rows, List.flatMap_cons, List.mem_append] at hc
      rcases hc with hc | hc
      · simp only [shadeRow, List.mem_map] at hc
        obtain ⟨c0, hc0, rfl⟩ := hc
        refine ⟨c0, _, ?_, rfl⟩
        simp only [List.flatMap_cons, List.mem_append]
        exact Or.inl hc0
      · obtain ⟨c0, f, h0, rfl⟩ := ih (i + 1) hc
        refine ⟨c0, f, ?_, rfl⟩
        simp only [List.flatMap_cons, List.mem_append]
        exact Or.inr h0

theorem mem_shade_cells (cols : List String) (cs : List Cell) (c : Cell)
    (hc : c ∈ shade_cells_with cols cs) :
    ∃ c0, c0 ∈ cs ∧ (c = c0 ∨ ∃ col, c = appendShd c0 col) := by
  induction cs generalizing cols with
  | nil =>
      cases cols with
      | nil => simp [shade_cells_with] at hc
      | cons col cols => simp [shade_cells_with] at hc
  | cons c0 cs ih =>
      cases cols with
      | nil =>
          simp only [shade_cells_with] at hc
          exact ⟨c, hc, Or.inl rfl⟩
      | cons col cols =>
          simp only [shade_cells_with, List.mem_cons] at hc
          rcases hc with rfl | hc
          · refine ⟨c0, by simp, ?_⟩
            split
            · exact Or.inr ⟨col, rfl⟩
            · exact Or.inl rfl
          · obtain ⟨c1, h1, h2⟩ := ih cols hc
            exact ⟨c1, by simp [h1], h2⟩

theorem mem_cells_shade_rows (sh : List (List String)) (rs : List Row) (c : Cell)
    (hc : c ∈ (shade_rows_with sh rs).flatMap Row.cells) :
    ∃ c0, c0 ∈ rs.flatMap Row.cells ∧ (c = c0 ∨ ∃ col, c = appendShd c0 col) := by
  induction rs generalizing sh with
  | nil =>
      cases sh with
      | nil => simp [shade_rows_with] at hc
      | cons colors more => simp [shade_rows_with] at hc
  | cons r rs ih =>
      cases sh with
      | nil =>
          simp only [shade_rows_with] at hc
          exact ⟨c, hc, Or.inl rfl⟩
      | cons colors more =>
          simp only [shade_rows_with, List.flatMap_cons, List.mem_append] at hc
          rcases hc with hc | hc
          · obtain ⟨c0, h0, h1⟩ := mem_shade_cells colors r.cells c hc
            refine ⟨c0, ?_, h1⟩
            simp only [List.flatMap_cons, List.mem_append]
            exact Or.inl h0
          · obtain ⟨c0, h0, h1⟩ := ih more hc
            refine ⟨c0, ?_, h1⟩
            simp only [List.flatMap_cons, List.mem_append]
            exact Or.inr h0

theorem mem_cells_border_all (t : Table) (v : String) (c : Cell)
    (hc : c ∈ allCells (border_all_cells t v)) :
    ∃ c0, c0 ∈ allCells t ∧
      c = set_cell_border c0 ["top", "bottom", "left", "right"] (some v) none none
        (some "000000") := by
  simp only [allCells, border_all_cells, List.flatMap_map, List.mem_flatMap] at hc
  obtain ⟨r, hr, hcr⟩ := hc
  simp only [List.mem_map] at hcr
  obtain ⟨c0, hc0, rfl⟩ := hcr
  refine ⟨c0, ?_, rfl⟩
  simp only [allCells, List.mem_flatMap]
  exact ⟨r, hr, hc0⟩

theorem mem_cells_bold_header (t : Table) (hh : Bool) (c : Cell)
    (hc : c ∈ allCells (bold_header_stage t hh)) :
    ∃ c0, c0 ∈ allCells t ∧ c.tcPr = c0.tcPr := by
  cases hh with
  | false =>
      refine ⟨c, ?_, rfl⟩
      simpa [bold_header_stage] using hc
  | true =>
      simp only [bold_header_stage, if_true] at hc
      cases ht : t.rows with
      | nil =>
          rw [ht] at hc
          exact ⟨c, hc, rfl⟩
      | cons r0 rest =>
          rw [ht] at hc
          simp only [allCells, List.flatMap_cons, List.mem_append, ht] at hc ⊢
          rcases hc with hc | hc
          · simp only [List.mem_map] at hc
            obtain ⟨c0, hc0, rfl⟩ := hc
            exact ⟨c0, Or.inl hc0, rfl⟩
          · exact ⟨c, Or.inr hc, rfl⟩

/-! ## Lemmas about format_text_para -/

theorem apply_format_text (t : List Char) (f : FormatSpec) : (apply_format t f).text = t := rfl

theorem paragraph_text_mk (rs : List Run) :
    Paragraph.text ⟨rs⟩ = (rs.map Run.text).flatten := rfl

theorem flatten_clear (rs : List Run) : ((rs.map Run.clear).map Run.text).flatten = [] := by
  induction rs with
  | nil => rfl
  | cons r rs ih => simp [Run.clear, ih]

theorem take_slice_drop (t : List Char) (a b : Nat) (hab : a ≤ b) :
    t.take a ++ (pySlice t a b ++ t.drop b) = t := by
  have h1 : t.take a = (t.take b).take a := by rw [List.take_take, Nat.min_eq_left hab]
  rw [pySlice, h1, ← List.append_assoc, List.take_append_drop, List.take_append_drop]

/-! ## Claim C5 -/

/-- Claim C5: for every paragraph and every pair (startPos, endPos) violating
the contract 0 ≤ startPos < endPos ≤ len(paragraph.text), format_text reports
the invalid-positions error (with the paragraph's character count) and leaves
the paragraph, in particular its run sequence, unchanged. -/
theorem C5_invalid_range_no_mutation (p : Paragraph) (s e : Int) (f : FormatSpec)
    (h : ¬ (0 ≤ s ∧ s < e ∧ e ≤ (p.text.length : Int))) :
    format_text_para p s e f = (FTResult.invalidPositions p.text.length, p) := by
  simp only [format_text_para]
  split
  · rfl
  · exfalso
    rename_i hcond
    omega

theorem C5_invalid_range_no_mutation_witness :
    format_text_para ⟨[{ text := "ab".data }]⟩ 1 1 {} =
      (FTResult.invalidPositions 2, ⟨[{ text := "ab".data }]⟩) :=
  C5_invalid_range_no_mutation ⟨[{ text := "ab".data }]⟩ 1 1 {} (by decide)

/-! ## Claim C10 -/

/-- Claim C10: for every paragraph and every valid range
0 ≤ startPos < endPos ≤ len(paragraph.text), a successful format_text call
preserves the paragraph's full text: the concatenation of all run texts after
the call equals the paragraph text before it. -/
theorem C10_text_preserved (p : Paragraph) (s e : Int) (f : FormatSpec)
    (h0 : 0 ≤ s) (h1 : s < e) (h2 : e ≤ (p.text.length : Int)) :
    ((format_text_para p s e f).2).text = p.text := by
  simp only [format_text_para]
  rw [if_neg (by omega)]
  simp only [paragraph_text_mk, List.map_append, List.flatten_append, flatten_clear]
  have hbefore :
      ((if 0 < s then [({ text := p.text.take s.toNat } : Run)] else []).map Run.text).flatten =
        p.text.take s.toNat := by
    split
    · simp
    · have hs : s = 0 := by omega
      simp [hs]
  have hafter :
      ((if e < (p.text.length : Int) then [({ text := p.text.drop e.toNat } : Run)]
          else []).map Run.text).flatten = p.text.drop e.toNat := by
    split
    · simp
    · have he : e.toNat = p.text.length := by omega
      simp [he]
  rw [hbefore, hafter]
  simp only [List.map_cons, List.map_nil, List.flatten_cons, List.flatten_nil,
    apply_format_text, List.append_nil, List.nil_append, List.append_assoc]
  exact take_slice_drop p.text s.toNat e.toNat (by omega)

theorem C10_text_preserved_witness :
    ((format_text_para ⟨[{ text := "Hello World".data }]⟩ 2 5 {}).2).text =
      (⟨[{ text := "Hello World".data }]⟩ : Paragraph).text :=
  C10_text_preserved ⟨[{ text := "Hello World".data }]⟩ 2 5 {} (by decide) (by decide)
    (by decide)

/-! ## Claim C1 -/

theorem format_text_para_valid (p : Paragraph) (s e : Int) (f : FormatSpec)
    (h0 : 0 ≤ s) (h1 : s < e) (h2 : e ≤ (p.text.length : Int)) :
    format_text_para p s e f =
      (FTResult.ok (pySlice p.text s.toNat e.toNat),
        ⟨p.runs.map Run.clear ++
          ((if 0 < s then [({ text := p.text.take s.toNat } : Run)] else []) ++
            ([apply_format (pySlice p.text s.toNat e.toNat) f] ++
              (if e < (p.text.length : Int) then [({ text := p.text.drop e.toNat } : Run)]
                else [])))⟩) := by
  simp only [format_text_para]
  rw [if_neg (by omega)]
  simp [List.append_assoc]

/-- Claim C1 (amended): on a paragraph whose text is Hello World, format_text
with startPos 0, endPos 5 and bold leaves the original runs in place but
emptied (python-docx clear keeps the run elements) followed by exactly the two
new runs Hello (bold) and space-World (unformatted); with startPos 6 and
endPos 11 it appends Hello-space (unformatted) then World (bold); in general
the prefix and suffix runs are omitted when empty, so at most three new runs
are appended after the emptied originals. -/
theorem C1_hello_world_splitting :
    (∀ p : Paragraph, p.text = "Hello World".data →
      (format_text_para p 0 5 { bold := some true }).2.runs =
        p.runs.map Run.clear ++
          [{ text := "Hello".data, bold := some true }, { text := " World".data }] ∧
      (format_text_para p 6 11 { bold := some true }).2.runs =
        p.runs.map Run.clear ++
          [{ text := "Hello ".data }, { text := "World".data, bold := some true }]) ∧
    ∀ (q : Paragraph) (s e : Int) (f : FormatSpec),
      ((format_text_para q s e f).2).runs.length ≤ q.runs.length + 3 := by
  constructor
  · intro p hp
    constructor
    · rw [format_text_para_valid p 0 5 { bold := some true } (by decide) (by decide)
        (by rw [hp]; decide)]
      simp only [hp]
      exact congrArg (fun l => p.runs.map Run.clear ++ l) (by decide)
    · rw [format_text_para_valid p 6 11 { bold := some true } (by decide) (by decide)
        (by rw [hp]; decide)]
      simp only [hp]
      exact congrArg (fun l => p.runs.map Run.clear ++ l) (by decide)
  · intro q s e f
    simp only [format_text_para]
    split
    · simp
    · simp only [List.length_append, List.length_map, List.length_cons, List.length_nil]
      split_ifs <;> simp

/-- Counterexample to claim C1 as stated: a single-run Hello World paragraph
has three runs after the startPos 0, endPos 5 call (the emptied original plus
the two new runs), not exactly two. -/
theorem C1_counterexample :
    (⟨[{ text := "Hello World".data }]⟩ : Paragraph).text = "Hello World".data ∧
    (format_text_para ⟨[{ text := "Hello World".data }]⟩ 0 5
      { bold := some true }).2.runs.length = 3 := by
  decide

theorem C1_hello_world_splitting_witness :
    (format_text_para ⟨[{ text := "Hello World".data }]⟩ 0 5 { bold := some true }).2.runs =
      (⟨[{ text := "Hello World".data }]⟩ : Paragraph).runs.map Run.clear ++
        [{ text := "Hello".data, bold := some true }, { text := " World".data }] :=
  (C1_hello_world_splitting.1 ⟨[{ text := "Hello World".data }]⟩ (by decide)).1

/-! ## Claim C4 -/

/-- Counterexample to claim C4 as stated: ZZZZZZ is made of no hexadecimal
digit at all, yet set_cell_shading emits it as the fill attribute and
succeeds (the source validates only the length of the normalized string),
instead of omitting the fill for a string failing 6-hex-digit validation. -/
theorem C4_counterexample :
    "ZZZZZZ".data.all isHexChar = false ∧
    set_cell_shading ⟨[], []⟩ (some (FillColor.str "ZZZZZZ")) "clear" "auto" =
      (⟨[TcChild.shd ⟨some "clear", some "auto", some "ZZZZZZ"⟩], []⟩, true) := by
  decide

/-- Claim C4 (amended): set_cell_shading normalizes a string fillColor by
stripping all leading hash characters and upper-casing, and validates only
that the result is exactly six characters long, not that the characters are
hexadecimal digits; whenever the length test fails, the fill attribute is
omitted from the emitted fragment while the pattern and patternColor
attributes are still applied, and the call succeeds. -/
theorem C4_length_only_validation (cell : Cell) (s pattern pc : String)
    (_ha : asciiStr s = true) (hlen : (normalize_fill s).length ≠ 6)
    (hp : xmlAttrOk pattern = true) (hpc : xmlAttrOk pc = true) :
    normalize_fill s = ⟨(s.data.dropWhile (fun c => c == '#')).map charUpper⟩ ∧
    set_cell_shading cell (some (FillColor.str s)) pattern pc =
      ({ cell with tcPr := removeFirstShd cell.tcPr ++
          [TcChild.shd ⟨some pattern, some pc, none⟩] }, true) := by
  refine ⟨rfl, ?_⟩
  have hfill : fillOf (some (FillColor.str s)) = none := by simp [fillOf, hlen]
  simp only [set_cell_shading, hfill]
  rw [if_pos (by simp [shdOk, hp, hpc])]

theorem C4_length_only_validation_witness :
    set_cell_shading ⟨[], []⟩ (some (FillColor.str "ABC")) "clear" "auto" =
      (⟨[TcChild.shd ⟨some "clear", some "auto", none⟩], []⟩, true) :=
  (C4_length_only_validation ⟨[], []⟩ "ABC" "clear" "auto" (by decide) (by decide)
    (by decide) (by decide)).2

/-! ## Claim C3 -/

/-- Claim C3: on a cell holding at most one shading fragment, applying
set_cell_shading twice in succession with two different valid fillColor
values leaves exactly one shading fragment in the property container, and it
carries the second value (in its normalized six-digit form): replace
semantics, not accumulation. -/
theorem C3_shade_twice_replaces (cell : Cell) (c1 c2 : String)
    (hinv : shdCount cell.tcPr ≤ 1)
    (_h1 : validFillStr c1 = true) (h2 : validFillStr c2 = true) (_hne : c1 ≠ c2) :
    shdFragments (((set_cell_shading
        ((set_cell_shading cell (some (FillColor.str c1)) "clear" "auto").1)
        (some (FillColor.str c2)) "clear" "auto").1).tcPr) =
      [⟨some "clear", some "auto", some (normalize_fill c2)⟩] :=
  shdFragments_scs_valid _ c2 "clear" "auto" (shdCount_scs cell _ _ _ hinv) (by decide)
    (by decide) h2

theorem C3_shade_twice_replaces_witness :
    shdFragments (((set_cell_shading
        ((set_cell_shading ⟨[], []⟩ (some (FillColor.str "FF0000")) "clear" "auto").1)
        (some (FillColor.str "00FF00")) "clear" "auto").1).tcPr) =
      [⟨some "clear", some "auto", some (normalize_fill "00FF00")⟩] :=
  C3_shade_twice_replaces ⟨[], []⟩ "FF0000" "00FF00" (by decide) (by decide) (by decide)
    (by decide)

/-! ## Claim C7 -/

/-- Claim C7: for every table, out-of-bounds row or column indices make
set_cell_shading_by_position return False and leave the table, hence every
shading fragment in it, unchanged; in-bounds indices delegate to
set_cell_shading on the addressed cell. -/
theorem C7_by_position_bounds (t : Table) (ri ci : Int) (fc pat : String) :
    (¬ posInBounds t ri ci → set_cell_shading_by_position t ri ci fc pat = (t, false)) ∧
    (posInBounds t ri ci →
      set_cell_shading_by_position t ri ci fc pat =
        (⟨t.rows.set ri.toNat
            ⟨(t.rows.getD ri.toNat ⟨[]⟩).cells.set ci.toNat
              (set_cell_shading ((t.rows.getD ri.toNat ⟨[]⟩).cells.getD ci.toNat ⟨[], []⟩)
                (some (FillColor.str fc)) pat "auto").1⟩⟩,
          (set_cell_shading ((t.rows.getD ri.toNat ⟨[]⟩).cells.getD ci.toNat ⟨[], []⟩)
            (some (FillColor.str fc)) pat "auto").2)) := by
  simp only [set_cell_shading_by_position, posInBounds]
  by_cases hP1 : 0 ≤ ri ∧ ri < (t.rows.length : Int)
  · rw [if_pos hP1]
    by_cases hP2 : 0 ≤ ci ∧ ci < ((t.rows.getD ri.toNat ⟨[]⟩).cells.length : Int)
    · rw [if_pos hP2]
      constructor
      · intro h
        exact absurd ⟨hP1.1, hP1.2, hP2.1, hP2.2⟩ h
      · intro _
        rfl
    · rw [if_neg hP2]
      constructor
      · intro _
        rfl
      · intro h
        exact absurd ⟨h.2.2.1, h.2.2.2⟩ hP2
  · rw [if_neg hP1]
    constructor
    · intro _
      rfl
    · intro h
      exact absurd ⟨h.1, h.2.1⟩ hP1

theorem C7_by_position_bounds_witness :
    set_cell_shading_by_position ⟨[⟨[⟨[], []⟩]⟩]⟩ 5 0 "FF0000" "clear" =
      (⟨[⟨[⟨[], []⟩]⟩]⟩, false) :=
  (C7_by_position_bounds ⟨[⟨[⟨[], []⟩]⟩]⟩ 5 0 "FF0000" "clear").1 (by decide)

/-! ## Claim C8 -/

/-- Claim C8: set_cell_border always appends a new edge node for each
requested edge key without looking for an existing edge of the same name, so
n successive applications leave the initial count plus n times the key
multiplicity edge nodes per requested edge: edge fragments accumulate and
the operation is not idempotent. -/
theorem C8_border_edges_accumulate (cell : Cell) (edges : List String)
    (v sz sp col : Option String) (n : Nat) (nm : String) (hnm : nm ∈ edgeKeyList) :
    edgeCountChildren nm ((set_cell_border_iter edges v sz sp col n cell).tcPr) =
      edgeCountChildren nm cell.tcPr + n * countKey nm edges := by
  induction n generalizing cell with
  | zero => simp [set_cell_border_iter]
  | succ n ih =>
      simp only [set_cell_border_iter]
      rw [ih]
      rw [show (set_cell_border cell edges v sz sp col).tcPr =
        set_cell_border_go v sz sp col edges cell.tcPr from rfl]
      rw [edgeCount_border_go nm hnm]
      ring

/-! ## Claim C9 -/

/-- Counterexample to claim C9 as stated: FFAABBCC is not a valid 6-hex-digit
text colour, yet highlight_header_row sets the header run's font colour (to
the RGB value of the first six digits) instead of leaving it unchanged: the
source parses the first three two-character slices of the string and never
checks its length. -/
theorem C9_counterexample :
    "FFAABBCC".length ≠ 6 ∧
    (highlight_header_row ⟨[⟨[⟨[], [⟨[{ text := "x".data }]⟩]⟩]⟩]⟩ "4472C4" "FFAABBCC").1 =
      ⟨[⟨[⟨[TcChild.shd ⟨some "clear", some "auto", some "4472C4"⟩],
        [⟨[{ text := "x".data, bold := some true, color := some (255, 170, 187) }]⟩]⟩]⟩]⟩ := by
  decide

/-- Claim C9 (amended): highlight_header_row applies the headerColor
background shading to every cell of row 0, bolds every existing run in those
cells and reports success, for every textColor; but the font colour is set
whenever the first three two-character slices of the hash-stripped textColor
parse as hexadecimal, even when the string is not a 6-hex-digit colour (an
eight-digit string, say, is accepted through its first six digits).  Only
when that prefix parse fails, or textColor is empty or the word auto, is each
run's font colour left unchanged, as proved here. -/
theorem C9_header_invalid_text_color (t : Table) (hc tc : String)
    (hv : validFillStr hc = true) (hcanon : normalize_fill hc = hc)
    (_htc : alnumOrHash tc = true) (hbad : parse_text_color tc = none)
    (hcells : ∀ c ∈ allCells t, shdCount c.tcPr ≤ 1) :
    (highlight_header_row t hc tc).2 = true ∧
    (highlight_header_row t hc tc).1.rows.length = t.rows.length ∧
    (∀ i : Nat, 1 ≤ i → (highlight_header_row t hc tc).1.rows[i]? = t.rows[i]?) ∧
    ∀ (j : Nat) (c0 c1 : Cell),
      (t.rows.headD ⟨[]⟩).cells[j]? = some c0 →
      ((highlight_header_row t hc tc).1.rows.headD ⟨[]⟩).cells[j]? = some c1 →
      shdFragments c1.tcPr = [⟨some "clear", some "auto", some hc⟩] ∧
      c1.paragraphs = c0.paragraphs.map
        (fun p => ⟨p.runs.map (fun r => { r with bold := some true })⟩) := by
  have hnone : (if tc ≠ "" ∧ tc ≠ "auto" then parse_text_color tc else none) = none := by
    rw [hbad, ite_self]
  cases ht : t.rows with
  | nil =>
      refine ⟨?_, ?_, ?_, ?_⟩
      · simp [highlight_header_row, ht]
      · simp [highlight_header_row, ht]
      · intro i hi
        simp [highlight_header_row, ht]
      · intro j c0 c1 h0 h1
        simp at h0
  | cons r0 rest =>
      refine ⟨?_, ?_, ?_, ?_⟩
      · simp [highlight_header_row, ht]
      · simp [highlight_header_row, ht]
      · intro i hi
        cases i with
        | zero => omega
        | succ n => simp [highlight_header_row, ht]
      · intro j c0 c1 h0 h1
        simp only [List.headD_cons] at h0
        simp only [highlight_header_row, ht, hnone, List.headD_cons, List.getElem?_map] at h1
        rw [h0] at h1
        simp only [Option.map_some', Option.some.injEq] at h1
        subst h1
        have hmem : c0 ∈ allCells t := by
          simp only [allCells, List.mem_flatMap]
          exact ⟨r0, by rw [ht]; exact List.mem_cons_self r0 rest, List.getElem?_mem h0⟩
        constructor
        · rw [show ({ (set_cell_shading c0 (some (FillColor.str hc)) "clear" "auto").1 with
              paragraphs := ((set_cell_shading c0 (some (FillColor.str hc)) "clear"
                "auto").1).paragraphs.map
                (fun p => ⟨p.runs.map (fun r => { r with bold := some true })⟩) } :
              Cell).tcPr =
            ((set_cell_shading c0 (some (FillColor.str hc)) "clear" "auto").1).tcPr from rfl]
          rw [shdFragments_scs_valid c0 hc "clear" "auto" (hcells c0 hmem) (by decide)
            (by decide) hv, hcanon]
        · show ((set_cell_shading c0 (some (FillColor.str hc)) "clear"
              "auto").1).paragraphs.map _ = _
          rw [paragraphs_scs]

theorem C9_header_invalid_text_color_witness :
    (highlight_header_row ⟨[⟨[⟨[], [⟨[{ text := "x".data }]⟩]⟩]⟩]⟩ "4472C4" "XYZ").2 = true ∧
    (highlight_header_row ⟨[⟨[⟨[], [⟨[{ text := "x".data }]⟩]⟩]⟩]⟩ "4472C4"
      "XYZ").1.rows.length = (⟨[⟨[⟨[], [⟨[{ text := "x".data }]⟩]⟩]⟩]⟩ : Table).rows.length ∧
    (∀ i : Nat, 1 ≤ i →
      (highlight_header_row ⟨[⟨[⟨[], [⟨[{ text := "x".data }]⟩]⟩]⟩]⟩ "4472C4"
        "XYZ").1.rows[i]? = (⟨[⟨[⟨[], [⟨[{ text := "x".data }]⟩]⟩]⟩]⟩ : Table).rows[i]?) ∧
    ∀ (j : Nat) (c0 c1 : Cell),
      ((⟨[⟨[⟨[], [⟨[{ text := "x".data }]⟩]⟩]⟩]⟩ : Table).rows.headD ⟨[]⟩).cells[j]? =
        some c0 →
      ((highlight_header_row ⟨[⟨[⟨[], [⟨[{ text := "x".data }]⟩]⟩]⟩]⟩ "4472C4"
        "XYZ").1.rows.headD ⟨[]⟩).cells[j]? = some c1 →
      shdFragments c1.tcPr = [⟨some "clear", some "auto", some "4472C4"⟩] ∧
      c1.paragraphs = c0.paragraphs.map
        (fun p => ⟨p.runs.map (fun r => { r with bold := some true })⟩) :=
  C9_header_invalid_text_color ⟨[⟨[⟨[], [⟨[{ text := "x".data }]⟩]⟩]⟩]⟩ "4472C4" "XYZ"
    (by decide) (by decide) (by decide) (by decide)
    (by intro c hcm; simp [allCells] at hcm; subst hcm; decide)

/-! ## Claim C6 -/

/-- Claim C6: for every table with R rows, apply_alternating_row_shading with
two (valid, canonical six-hex-digit) colours shades every cell of row i with
fill colour color1 when i is even and color2 when i is odd, using pattern
clear, for every i in 0..R-1 (each cell's property container, holding at most
one shading fragment beforehand, ends with exactly that one fragment). -/
theorem C6_alternating_rows (t : Table) (c1 c2 : String)
    (h1a : validFillStr c1 = true) (h1b : normalize_fill c1 = c1)
    (h2a : validFillStr c2 = true) (h2b : normalize_fill c2 = c2)
    (hcells : ∀ c ∈ allCells t, shdCount c.tcPr ≤ 1) :
    (apply_alternating_row_shading t c1 c2).2 = true ∧
    (apply_alternating_row_shading t c1 c2).1.rows.length = t.rows.length ∧
    ∀ (i : Nat) (row : Row), (apply_alternating_row_shading t c1 c2).1.rows[i]? = some row →
      ∀ c ∈ row.cells,
        shdFragments c.tcPr =
          [⟨some "clear", some "auto", some (if i % 2 = 0 then c1 else c2)⟩] := by
  refine ⟨rfl, ?_, ?_⟩
  · simp [apply_alternating_row_shading, alt_rows_length]
  · intro i row hrow c hc
    simp only [apply_alternating_row_shading] at hrow
    rw [alt_rows_getElem?, Nat.zero_add] at hrow
    cases ht : t.rows[i]? with
    | none => rw [ht] at hrow; simp at hrow
    | some r0 =>
        rw [ht] at hrow
        simp only [Option.map_some', Option.some.injEq] at hrow
        subst hrow
        simp only [shadeRow, List.mem_map] at hc
        obtain ⟨c0, hc0, rfl⟩ := hc
        have hmem : c0 ∈ allCells t := by
          simp only [allCells, List.mem_flatMap]
          exact ⟨r0, List.getElem?_mem ht, hc0⟩
        by_cases hi : i % 2 = 0
        · simp only [if_pos hi]
          rw [shdFragments_scs_valid c0 c1 "clear" "auto" (hcells c0 hmem) (by decide)
            (by decide) h1a, h1b]
        · simp only [if_neg hi]
          rw [shdFragments_scs_valid c0 c2 "clear" "auto" (hcells c0 hmem) (by decide)
            (by decide) h2a, h2b]

theorem C6_alternating_rows_witness :
    (apply_alternating_row_shading ⟨[⟨[⟨[], []⟩]⟩, ⟨[⟨[], []⟩]⟩]⟩ "AABBCC" "DDEEFF").2 = true ∧
    (apply_alternating_row_shading ⟨[⟨[⟨[], []⟩]⟩, ⟨[⟨[], []⟩]⟩]⟩ "AABBCC"
      "DDEEFF").1.rows.length = (⟨[⟨[⟨[], []⟩]⟩, ⟨[⟨[], []⟩]⟩]⟩ : Table).rows.length ∧
    ∀ (i : Nat) (row : Row),
      (apply_alternating_row_shading ⟨[⟨[⟨[], []⟩]⟩, ⟨[⟨[], []⟩]⟩]⟩ "AABBCC"
        "DDEEFF").1.rows[i]? = some row →
      ∀ c ∈ row.cells,
        shdFragments c.tcPr =
          [⟨some "clear", some "auto", some (if i % 2 = 0 then "AABBCC" else "DDEEFF")⟩] :=
  C6_alternating_rows ⟨[⟨[⟨[], []⟩]⟩, ⟨[⟨[], []⟩]⟩]⟩ "AABBCC" "DDEEFF" (by decide) (by decide)
    (by decide) (by decide)
    (by intro c hcm; simp [allCells] at hcm; subst hcm; decide)

theorem C8_border_edges_accumulate_witness :
    edgeCountChildren "top"
      ((set_cell_border_iter ["top", "bottom", "left", "right"] (some "single") none none
        (some "000000") 2 ⟨[], []⟩).tcPr) =
      edgeCountChildren "top" (⟨[], []⟩ : Cell).tcPr +
        2 * countKey "top" ["top", "bottom", "left", "right"] :=
  C8_border_edges_accumulate ⟨[], []⟩ ["top", "bottom", "left", "right"] (some "single") none
    none (some "000000") 2 "top" (by decide)

/-! ## Claim C2 -/

theorem cellInv_scs (c : Cell) (fc : Option FillColor) (p pc : String) (h : CellInv c) :
    CellInv (set_cell_shading c fc p pc).1 :=
  ⟨shdCount_scs c fc p pc h.1, by rw [bordersCount_scs]; exact h.2⟩

theorem cellInv_border (c : Cell) (edges : List String) (v sz sp col : Option String)
    (h : CellInv c) : CellInv (set_cell_border c edges v sz sp col) :=
  ⟨by rw [shdCount_border]; exact h.1, bordersCount_border c edges v sz sp col h.2⟩

theorem getD_mem_of_lt {α : Type} (l : List α) (n : Nat) (d : α) (h : n < l.length) :
    l.getD n d ∈ l := by
  rw [List.getD_eq_getElem?_getD, List.getElem?_eq_getElem h]
  simp only [Option.getD_some]
  exact List.getElem_mem h

/-- Counterexample to claim C2 as stated: a cell already holding one shading
fragment satisfies the invariant, but the shading-matrix path of format_table
(apply_table_style) appends a second shading fragment without removing the
first, so the resulting cell violates it. -/
theorem C2_counterexample :
    CellInv ⟨[TcChild.shd ⟨some "clear", some "auto", some "FFFFFF"⟩], []⟩ ∧
    ¬ CellInv (((apply_table_style
        ⟨[⟨[⟨[TcChild.shd ⟨some "clear", some "auto", some "FFFFFF"⟩], []⟩]⟩]⟩ false none
        (some [["ABCDEF"]])).1.rows.headD ⟨[]⟩).cells.headD ⟨[], []⟩) := by
  decide

/-- Claim C2 (amended): set_cell_shading and set_cell_border preserve the
invariant that a property container holds at most one shading fragment and at
most one border-collection fragment, and so do the whole-table operations
built on them (shadeCellAtPosition, alternating-row shading, header
highlighting); the shading-matrix path of format_table, however, appends a
shading fragment without removing an existing one, so that operation
preserves the invariant only for cells holding no shading fragment before
the call. -/
theorem C2_invariant_preservation :
    (∀ (c : Cell) (fc : Option FillColor) (p pc : String),
      CellInv c → CellInv (set_cell_shading c fc p pc).1) ∧
    (∀ (c : Cell) (edges : List String) (v sz sp col : Option String),
      CellInv c → CellInv (set_cell_border c edges v sz sp col)) ∧
    (∀ (t : Table) (ri ci : Int) (fc pat : String),
      (∀ c ∈ allCells t, CellInv c) →
      ∀ c ∈ allCells (set_cell_shading_by_position t ri ci fc pat).1, CellInv c) ∧
    (∀ (t : Table) (c1 c2 : String),
      (∀ c ∈ allCells t, CellInv c) →
      ∀ c ∈ allCells (apply_alternating_row_shading t c1 c2).1, CellInv c) ∧
    (∀ (t : Table) (hc tc : String),
      (∀ c ∈ allCells t, CellInv c) →
      ∀ c ∈ allCells (highlight_header_row t hc tc).1, CellInv c) ∧
    (∀ (t : Table) (hh : Bool) (bs : Option String) (sh : Option (List (List String))),
      (∀ c ∈ allCells t, shdCount c.tcPr = 0 ∧ bordersCount c.tcPr ≤ 1) →
      ∀ c ∈ allCells (apply_table_style t hh bs sh).1, CellInv c) := by
  refine ⟨fun c fc p pc h => cellInv_scs c fc p pc h,
    fun c edges v sz sp col h => cellInv_border c edges v sz sp col h, ?_, ?_, ?_, ?_⟩
  · intro t ri ci fc pat hall c hcm
    simp only [set_cell_shading_by_position] at hcm
    split at hcm
    · rename_i hP1
      split at hcm
      · rename_i hP2
        simp only [allCells, List.mem_flatMap] at hcm
        obtain ⟨r, hr, hcr⟩ := hcm
        have hrowlt : ri.toNat < t.rows.length := by omega
        have hrowmem : t.rows.getD ri.toNat ⟨[]⟩ ∈ t.rows := getD_mem_of_lt _ _ _ hrowlt
        rcases List.mem_or_eq_of_mem_set hr with hr | rfl
        · exact hall c (by simp only [allCells, List.mem_flatMap]; exact ⟨r, hr, hcr⟩)
        · rcases List.mem_or_eq_of_mem_set hcr with hcc | rfl
          · exact hall c
              (by simp only [allCells, List.mem_flatMap]; exact ⟨_, hrowmem, hcc⟩)
          · have hcollt : ci.toNat < (t.rows.getD ri.toNat ⟨[]⟩).cells.length := by omega
            have hcellmem := getD_mem_of_lt (t.rows.getD ri.toNat ⟨[]⟩).cells ci.toNat
              ⟨[], []⟩ hcollt
            exact cellInv_scs _ _ _ _ (hall _
              (by simp only [allCells, List.mem_flatMap]; exact ⟨_, hrowmem, hcellmem⟩))
      · exact hall c hcm
    · exact hall c hcm
  · intro t c1 c2 hall c hcm
    simp only [apply_alternating_row_shading, allCells] at hcm
    obtain ⟨c0, fill, h0, rfl⟩ := mem_cells_alt_rows c1 c2 0 t.rows c hcm
    exact cellInv_scs _ _ _ _ (hall c0 h0)
  · intro t hc tc hall c hcm
    cases ht : t.rows with
    | nil =>
        simp only [highlight_header_row, ht] at hcm
        exact hall c hcm
    | cons r0 rest =>
        simp only [highlight_header_row, ht, allCells, List.flatMap_cons,
          List.mem_append] at hcm
        rcases hcm with hcm | hcm
        · simp only [List.mem_map] at hcm
          obtain ⟨c0, hc0, rfl⟩ := hcm
          have hmem : c0 ∈ allCells t := by
            simp only [allCells, ht, List.flatMap_cons, List.mem_append]
            exact Or.inl hc0
          exact cellInv_scs c0 (some (FillColor.str hc)) "clear" "auto" (hall c0 hmem)
        · have hmem : c ∈ allCells t := by
            simp only [allCells, ht, List.flatMap_cons, List.mem_append]
            exact Or.inr hcm
          exact hall c hmem
  · intro t hh bs sh hall c hcm
    have hstage1 : ∀ c ∈ allCells (bold_header_stage t hh),
        shdCount c.tcPr = 0 ∧ bordersCount c.tcPr ≤ 1 := by
      intro c hc1
      obtain ⟨c0, h0, htc⟩ := mem_cells_bold_header t hh c hc1
      rw [htc]
      exact hall c0 h0
    have hstage2 : ∀ c ∈ allCells (border_stage (bold_header_stage t hh) bs),
        shdCount c.tcPr = 0 ∧ bordersCount c.tcPr ≤ 1 := by
      intro c hc2
      cases bs with
      | none => exact hstage1 c hc2
      | some b =>
          by_cases hb : b = ""
          · rw [border_stage, if_pos hb] at hc2
            exact hstage1 c hc2
          · rw [border_stage, if_neg hb] at hc2
            obtain ⟨c0, h0, rfl⟩ := mem_cells_border_all _ _ c hc2
            have h1 := hstage1 c0 h0
            exact ⟨by rw [shdCount_border]; exact h1.1,
              bordersCount_border _ _ _ _ _ _ h1.2⟩
    simp only [apply_table_style] at hcm
    cases sh with
    | none =>
        have h2 := hstage2 c hcm
        exact ⟨by omega, h2.2⟩
    | some s =>
        simp only [shading_stage, allCells] at hcm
        obtain ⟨c0, h0, hcase⟩ := mem_cells_shade_rows s _ c hcm
        have h2 := hstage2 c0 h0
        rcases hcase with rfl | ⟨col, rfl⟩
        · exact ⟨by omega, h2.2⟩
        · exact ⟨by rw [shdCount_appendShd]; omega,
            by rw [bordersCount_appendShd]; exact h2.2⟩

theorem C2_invariant_preservation_witness :
    CellInv (set_cell_shading ⟨[TcChild.shd ⟨some "clear", some "auto", some "FFFFFF"⟩], []⟩
      (some (FillColor.str "ABCDEF")) "clear" "auto").1 :=
  C2_invariant_preservation.1 ⟨[TcChild.shd ⟨some "clear", some "auto", some "FFFFFF"⟩], []⟩
    (some (FillColor.str "ABCDEF")) "clear" "auto" (by decide)

end WordServer
